import Mathlib

/-!
Verification development for the `webp-converter` repository
(`convert-images.js`).

The script recursively walks a source directory tree
(`to-be-converted`), converts every image file with a supported
extension to WebP into a mirrored tree under `converted`, and
aggregates per-directory statistics bottom-up.

Shallow embedding conventions:
* File and directory names are `List Char` (one path segment each);
  paths are lists of segments.  Node's `path.join` on such segments is
  list append, and the embedding of `path.extname` / `path.relative`
  and of the extension-replacing regular expression is given below,
  each with a comment describing the library behaviour it models.
* The external effects of one file conversion (`fs.stat` on the input,
  `ensureDir`, the `sharp` metadata probe, the encoder invocation plus
  `fs.stat` on the output) are an explicit oracle record `FileEffects`
  attached to each file entry; `none` / `false` components model the
  corresponding awaited operation throwing.
* JavaScript number arithmetic for the percentage-reduction report is
  modelled by `JsNum`: finite doubles are idealised as exact rationals,
  and division by zero yields `NaN` / `±Infinity` (never an exception),
  exactly as in JavaScript.
* Console output is modelled as a list of structured `LogEvent`s; the
  exact text of a log line is a presentation concern, but whether a
  line is emitted at all, and the savings figure embedded in it, are
  modelled faithfully.
-/

namespace WebpConverter

/-! ## Strings and extensions -/

/-- Split a segment around its last dot: `splitLastDot cs = some (b, a)`
when `cs = b ++ dot :: a` and `a` contains no dot; `none` when `cs`
contains no dot. -/
def splitLastDot : List Char → Option (List Char × List Char)
  | [] => none
  | c :: cs =>
    match splitLastDot cs with
    | some (b, a) => some (c :: b, a)
    | none => if c = '.' then some ([], cs) else none

/-- Model of Node `path.extname` on a bare file name (no slashes):
the suffix from the last dot, except that a name with no dot, a name
whose only dot is its first character (a hidden file such as
`.gitignore`), and the name `..` have no extension. -/
def extname (name : List Char) : List Char :=
  match splitLastDot name with
  | none => []
  | some (b, a) =>
    if b = [] then []
    else if b = ['.'] ∧ a = [] then []
    else '.' :: a

/-- `SUPPORTED_FORMATS` from the source: the recognized (lowercased)
extensions. -/
def SUPPORTED_FORMATS : List (List Char) :=
  [".gif".toList, ".png".toList, ".jpg".toList, ".jpeg".toList,
   ".tiff".toList, ".bmp".toList, ".webp".toList, ".avif".toList]

/-- Lowercased extension of a file name, as computed at line 105 and
line 182 of the source (`path.extname(...).toLowerCase()`). -/
def lowerExt (name : List Char) : List Char :=
  (extname name).map Char.toLower

/-- Model of `outputPath.replace(/\.[^\x7b/.\x7d]+$/, ".webp")` acting on
one path segment.  The regular expression matches a dot followed by one
or more characters that are neither `/` nor `.`, anchored at the end of
the string; since the matched characters cannot include `/`, a match is
always contained in the final path segment, so applying the replacement
to the final segment is exact. -/
def regexWebpSegment (s : List Char) : List Char :=
  match splitLastDot s with
  | some (b, a) => if a ≠ [] ∧ '/' ∉ a then b ++ ".webp".toList else s
  | none => s

/-- Apply the `.webp` regex replacement to the final segment of a path
(the replacement on the joined path string can only touch the final
segment, see `regexWebpSegment`). -/
def replaceExtWithWebp : List (List Char) → List (List Char)
  | [] => []
  | [s] => [regexWebpSegment s]
  | s :: rest => s :: replaceExtWithWebp rest

/-- Model of Node `path.relative` for already-normalized relative
paths, on path segments: strip the longest common prefix, then one
`..` per remaining segment of the base followed by the remaining
segments of the target. -/
def relSegs : List (List Char) → List (List Char) → List (List Char)
  | [], t => t
  | f, [] => List.replicate f.length "..".toList
  | a :: f, b :: t =>
    if a = b then relSegs f t
    else List.replicate (a :: f).length "..".toList ++ (b :: t)

/-- `TO_BE_CONVERTED_DIR` from the source. -/
def TO_BE_CONVERTED_DIR : List Char := "to-be-converted".toList

/-- `CONVERTED_DIR` from the source. -/
def CONVERTED_DIR : List Char := "converted".toList

/-! ## JavaScript number model for the savings report -/

/-- A JavaScript number: a finite double (idealised as an exact
rational), `NaN`, or a signed infinity. -/
inductive JsNum where
  | num : ℚ → JsNum
  | nan : JsNum
  | posInf : JsNum
  | negInf : JsNum
deriving DecidableEq

/-- JavaScript subtraction. -/
def jsSub : JsNum → JsNum → JsNum
  | .num a, .num b => .num (a - b)
  | .nan, _ => .nan
  | _, .nan => .nan
  | .posInf, .posInf => .nan
  | .posInf, _ => .posInf
  | .negInf, .negInf => .nan
  | .negInf, _ => .negInf
  | .num _, .posInf => .negInf
  | .num _, .negInf => .posInf

/-- JavaScript division.  Division never throws: a nonzero finite
number divided by (positive) zero is a signed infinity and `0 / 0` is
`NaN`.  (Negative zero does not arise here: the divisors in the source
are byte counts.) -/
def jsDiv : JsNum → JsNum → JsNum
  | .num a, .num b =>
    if b = 0 then (if a = 0 then .nan else if 0 < a then .posInf else .negInf)
    else .num (a / b)
  | .nan, _ => .nan
  | _, .nan => .nan
  | .posInf, .posInf => .nan
  | .posInf, .negInf => .nan
  | .negInf, .posInf => .nan
  | .negInf, .negInf => .nan
  | .posInf, .num b => if 0 ≤ b then .posInf else .negInf
  | .negInf, .num b => if 0 ≤ b then .negInf else .posInf
  | .num _, .posInf => .num 0
  | .num _, .negInf => .num 0

/-- JavaScript multiplication. -/
def jsMul : JsNum → JsNum → JsNum
  | .num a, .num b => .num (a * b)
  | .nan, _ => .nan
  | _, .nan => .nan
  | .posInf, .num b => if b = 0 then .nan else if 0 < b then .posInf else .negInf
  | .negInf, .num b => if b = 0 then .nan else if 0 < b then .negInf else .posInf
  | .num a, .posInf => if a = 0 then .nan else if 0 < a then .posInf else .negInf
  | .num a, .negInf => if a = 0 then .nan else if 0 < a then .negInf else .posInf
  | .posInf, .posInf => .posInf
  | .posInf, .negInf => .negInf
  | .negInf, .posInf => .negInf
  | .negInf, .negInf => .posInf

/-- Decimal rendering of a nonnegative rational with exactly two
digits after the point, rounding ties up, per the `Number.toFixed`
algorithm. -/
def formatFixed2Nonneg (q : ℚ) : String :=
  let n : ℤ := ⌊q * 100 + 1 / 2⌋
  let m : Nat := n.toNat
  toString (m / 100) ++ "." ++
    (if m % 100 < 10 then "0" ++ toString (m % 100) else toString (m % 100))

/-- Decimal rendering of a finite rational per `Number.toFixed(2)`:
a negative number is rendered as the minus sign followed by the
rendering of its negation. -/
def formatFixed2 (q : ℚ) : String :=
  if q < 0 then "-" ++ formatFixed2Nonneg (-q) else formatFixed2Nonneg q

/-- Model of `x.toFixed(2)`: `NaN` renders as `"NaN"` and the
infinities render as `"Infinity"` / `"-Infinity"`, without any
exception. -/
def toFixed2 : JsNum → String
  | .num q => formatFixed2 q
  | .nan => "NaN"
  | .posInf => "Infinity"
  | .negInf => "-Infinity"

/-- The savings figure of line 126 of the source:
`(((originalSize - newSize) / originalSize) * 100).toFixed(2)`. -/
def savingsStr (originalSize newSize : Nat) : String :=
  toFixed2 (jsMul (jsDiv (jsSub (.num originalSize) (.num newSize))
    (.num originalSize)) (.num 100))

/-- The overall-reduction figure printed by `main` (lines 232–238 of
the source): the same formula applied to the aggregated byte totals. -/
def overallReductionStr (totalOriginalSize totalNewSize : Nat) : String :=
  savingsStr totalOriginalSize totalNewSize

/-! ## Statistics -/

/-- The `stats` record built by `processDirectory` (lines 151–158 of
the source).  `formats` is the JavaScript object `stats.formats`,
embedded as an association list in insertion order. -/
@[ext]
structure Stats where
  totalFiles : Nat
  successfulConversions : Nat
  failedConversions : Nat
  totalOriginalSize : Nat
  totalNewSize : Nat
  formats : List (List Char × Nat)
deriving DecidableEq

/-- The fresh statistics record every call starts from. -/
def initStats : Stats :=
  { totalFiles := 0, successfulConversions := 0, failedConversions := 0,
    totalOriginalSize := 0, totalNewSize := 0, formats := [] }

/-- `stats.formats[format] = (stats.formats[format] || 0) + count`
(lines 179 and 185 of the source): add `count` to the entry of `key`,
creating it at the end when absent.  On an association list this
updates the first occurrence of the key in place. -/
def bumpFormat : List (List Char × Nat) → List Char → Nat → List (List Char × Nat)
  | [], key, count => [(key, count)]
  | (k, v) :: rest, key, count =>
    if k = key then (k, v + count) :: rest
    else (k, v) :: bumpFormat rest key count

/-- The `Object.entries(subStats.formats).forEach` merge of lines
178–180 of the source: fold the child's entries into the parent. -/
def mergeFormats (parent child : List (List Char × Nat)) : List (List Char × Nat) :=
  child.foldl (fun acc p => bumpFormat acc p.1 p.2) parent

/-- The statistics merge of lines 172–180 of the source: the five
numeric fields add and the format counts are folded in. -/
def mergeStats (stats sub : Stats) : Stats :=
  { totalFiles := stats.totalFiles + sub.totalFiles,
    successfulConversions := stats.successfulConversions + sub.successfulConversions,
    failedConversions := stats.failedConversions + sub.failedConversions,
    totalOriginalSize := stats.totalOriginalSize + sub.totalOriginalSize,
    totalNewSize := stats.totalNewSize + sub.totalNewSize,
    formats := mergeFormats stats.formats sub.formats }

/-- The count recorded for a key: the sum of the values of its
occurrences (a single value when keys are unique, as the program
maintains). -/
def fmtCount : List (List Char × Nat) → List Char → Nat
  | [], _ => 0
  | (k, v) :: rest, key => (if k = key then v else 0) + fmtCount rest key

/-- Sum of all recorded format counts. -/
def sumFormats : List (List Char × Nat) → Nat
  | [] => 0
  | (_, v) :: rest => v + sumFormats rest

/-- Whether a key occurs in the association list. -/
def hasKey : List (List Char × Nat) → List Char → Bool
  | [], _ => false
  | (k, _) :: rest, key => k = key || hasKey rest key

theorem mergeFormats_nil (p : List (List Char × Nat)) : mergeFormats p [] = p := rfl

theorem mergeFormats_cons (p : List (List Char × Nat)) (k : List Char) (v : Nat)
    (c : List (List Char × Nat)) :
    mergeFormats p ((k, v) :: c) = mergeFormats (bumpFormat p k v) c := rfl

theorem bumpFormat_bumpFormat_same (l : List (List Char × Nat)) (k : List Char)
    (v1 v2 : Nat) :
    bumpFormat (bumpFormat l k v1) k v2 = bumpFormat l k (v1 + v2) := by
  induction l with
  | nil => simp [bumpFormat, Nat.add_assoc]
  | cons hd rest ih =>
    obtain ⟨k0, v0⟩ := hd
    by_cases h : k0 = k
    · simp [bumpFormat, h, Nat.add_assoc]
    · simp [bumpFormat, h, ih]

theorem hasKey_bumpFormat (l : List (List Char × Nat)) (k key : List Char) (v : Nat) :
    hasKey (bumpFormat l k v) key = (decide (k = key) || hasKey l key) := by
  induction l with
  | nil => simp [bumpFormat, hasKey]
  | cons hd rest ih =>
    obtain ⟨k0, v0⟩ := hd
    by_cases h : k0 = k
    · subst h
      simp [bumpFormat, hasKey]
    · simp only [bumpFormat, if_neg h, hasKey, ih]
      cases hkk : decide (k = key) <;> cases hk0 : decide (k0 = key) <;> simp_all

theorem bumpFormat_comm (q : List (List Char × Nat)) (k k1 : List Char) (v v1 : Nat)
    (hne : k ≠ k1) (hmem : hasKey q k = true) :
    bumpFormat (bumpFormat q k v) k1 v1 = bumpFormat (bumpFormat q k1 v1) k v := by
  induction q with
  | nil => simp [hasKey] at hmem
  | cons hd rest ih =>
    obtain ⟨k0, v0⟩ := hd
    by_cases h0k : k0 = k
    · have h0k1 : ¬ k0 = k1 := by rw [h0k]; exact hne
      simp [bumpFormat, h0k, h0k1, hne]
    · have hrest : hasKey rest k = true := by
        simp only [hasKey] at hmem
        rcases Bool.or_eq_true_iff.mp hmem with h | h
        · exact absurd (of_decide_eq_true h) h0k
        · exact h
      by_cases h0k1 : k0 = k1
      · simp [bumpFormat, h0k, h0k1, Ne.symm hne]
      · simp [bumpFormat, h0k, h0k1, ih hrest]

theorem mergeFormats_bumpFormat_mem (a : List (List Char × Nat))
    (q : List (List Char × Nat)) (k : List Char) (v : Nat)
    (hmem : hasKey q k = true) :
    mergeFormats (bumpFormat q k v) a = bumpFormat (mergeFormats q a) k v := by
  induction a generalizing q with
  | nil => rfl
  | cons hd a' ih =>
    obtain ⟨k1, v1⟩ := hd
    by_cases h : k1 = k
    · subst h
      rw [mergeFormats_cons, bumpFormat_bumpFormat_same,
        show v + v1 = v1 + v from Nat.add_comm v v1,
        ← bumpFormat_bumpFormat_same, mergeFormats_cons]
      exact ih (bumpFormat q k1 v1) (by simp [hasKey_bumpFormat, hmem])
    · rw [mergeFormats_cons, bumpFormat_comm q k k1 v v1 (fun he => h he.symm) hmem,
        mergeFormats_cons]
      exact ih (bumpFormat q k1 v1) (by simp [hasKey_bumpFormat, hmem])

theorem mergeFormats_bumpFormat (a p : List (List Char × Nat)) (k : List Char) (v : Nat) :
    mergeFormats p (bumpFormat a k v) = bumpFormat (mergeFormats p a) k v := by
  induction a generalizing p with
  | nil => rfl
  | cons hd a' ih =>
    obtain ⟨k0, v0⟩ := hd
    by_cases h : k0 = k
    · subst h
      show mergeFormats p (bumpFormat ((k0, v0) :: a') k0 v) = _
      rw [show bumpFormat ((k0, v0) :: a') k0 v = (k0, v0 + v) :: a' by simp [bumpFormat],
        mergeFormats_cons, ← bumpFormat_bumpFormat_same,
        mergeFormats_bumpFormat_mem a' (bumpFormat p k0 v0) k0 v
          (by simp [hasKey_bumpFormat]), mergeFormats_cons]
    · rw [show bumpFormat ((k0, v0) :: a') k v = (k0, v0) :: bumpFormat a' k v by
        simp [bumpFormat, h], mergeFormats_cons, ih, mergeFormats_cons]

theorem mergeFormats_assoc (p a b : List (List Char × Nat)) :
    mergeFormats (mergeFormats p a) b = mergeFormats p (mergeFormats a b) := by
  induction b generalizing a with
  | nil => rfl
  | cons hd b' ih =>
    obtain ⟨k, v⟩ := hd
    rw [mergeFormats_cons, ← mergeFormats_bumpFormat, ih, mergeFormats_cons]

theorem fmtCount_bumpFormat (l : List (List Char × Nat)) (k key : List Char) (v : Nat) :
    fmtCount (bumpFormat l k v) key = fmtCount l key + (if k = key then v else 0) := by
  induction l with
  | nil =>
    by_cases h : k = key <;> simp [bumpFormat, fmtCount, h]
  | cons hd rest ih =>
    obtain ⟨k0, v0⟩ := hd
    simp only [bumpFormat]
    by_cases h : k0 = k
    · subst h
      simp only [if_pos rfl, fmtCount]
      by_cases hk : k0 = key <;> simp [hk] <;> omega
    · simp only [if_neg h, fmtCount, ih]
      omega

theorem fmtCount_mergeFormats (c p : List (List Char × Nat)) (key : List Char) :
    fmtCount (mergeFormats p c) key = fmtCount p key + fmtCount c key := by
  induction c generalizing p with
  | nil => simp [mergeFormats_nil, fmtCount]
  | cons hd c' ih =>
    obtain ⟨k, v⟩ := hd
    rw [mergeFormats_cons, ih]
    simp [fmtCount, fmtCount_bumpFormat]
    omega

theorem sumFormats_bumpFormat (l : List (List Char × Nat)) (k : List Char) (v : Nat) :
    sumFormats (bumpFormat l k v) = sumFormats l + v := by
  induction l with
  | nil => simp [bumpFormat, sumFormats]
  | cons hd rest ih =>
    obtain ⟨k0, v0⟩ := hd
    by_cases h : k0 = k <;> simp [bumpFormat, h, sumFormats, ih] <;> omega

theorem sumFormats_mergeFormats (c p : List (List Char × Nat)) :
    sumFormats (mergeFormats p c) = sumFormats p + sumFormats c := by
  induction c generalizing p with
  | nil => simp [mergeFormats_nil, sumFormats]
  | cons hd c' ih =>
    obtain ⟨k, v⟩ := hd
    rw [mergeFormats_cons, ih, sumFormats_bumpFormat]
    simp [sumFormats]
    omega

theorem mergeStats_initStats (s : Stats) : mergeStats s initStats = s := by
  ext <;> simp [mergeStats, initStats, mergeFormats_nil]

theorem mergeStats_assoc (p a b : Stats) :
    mergeStats (mergeStats p a) b = mergeStats p (mergeStats a b) := by
  ext <;> simp [mergeStats, Nat.add_assoc, mergeFormats_assoc]

/-! ## The single-file converter -/

/-- Oracle describing the outcome of the awaited external operations
performed for one file by `convertFile` (lines 103–147 of the source),
in the order they are performed inside the `try` block:
* `statSize`: the result of `fs.stat(inputPath)` — `none` models the
  call throwing, `some n` yields size `n`;
* `ensureDirOk`: whether `ensureDir(path.dirname(outputPath))`
  succeeds;
* `probe`: the `sharp(filePath).metadata()` result used by
  `isAnimatedGif` — `none` models the probe throwing, `some none`
  a metadata object whose `pages` field is `undefined`, and
  `some (some p)` a page count `p`;
* `convertAndStat`: `none` models the invoked encoder (either path) or
  the subsequent `fs.stat(outputPath)` throwing, `some n` yields
  output size `n`. -/
structure FileEffects where
  statSize : Option Nat
  ensureDirOk : Bool
  probe : Option (Option Nat)
  convertAndStat : Option Nat
deriving DecidableEq

/-- Which encoder a file was dispatched to (line 118–122 of the
source): the `gif2webp` animation transcoder or the `sharp` static
encoder. -/
inductive Route where
  | animated : Route
  | staticEnc : Route
deriving DecidableEq

/-- The value returned by `convertFile` on success (lines 135–139 of
the source; the `success: true` field is implicit in taking the `some`
alternative). -/
structure ConvOutcome where
  originalSize : Nat
  newSize : Nat
deriving DecidableEq

/-- Console output events, at the granularity of the source's log
statements: the unsupported-file skip line (line 107), the
success block with its savings figure (lines 130–133), the per-file
error line (lines 141–144), and the per-directory error line
(line 201). -/
inductive LogEvent where
  | skippedUnsupported : List Char → LogEvent
  | converted : List Char → Nat → Nat → String → LogEvent
  | convertError : List Char → LogEvent
  | dirError : List (List Char) → LogEvent
deriving DecidableEq

/-- `isAnimatedGif` (lines 28–36 of the source): `metadata.pages &&
metadata.pages > 1`, with an `undefined` or `0` pages field falsy, and
any probe error caught and mapped to `true`. -/
def isAnimatedGif (probe : Option (Option Nat)) : Bool :=
  match probe with
  | none => true
  | some none => false
  | some (some pages) => 1 < pages

/-- `convertFile` (lines 103–147 of the source).  Returns the outcome
(`none` both for the unsupported-extension early return and for the
`catch` branch), the encoder the file was dispatched to (`none` when a
failure occurs before dispatch), and the log lines emitted. -/
def convertFile (name : List Char) (io : FileEffects) :
    Option ConvOutcome × Option Route × List LogEvent :=
  if lowerExt name ∈ SUPPORTED_FORMATS then
    match io.statSize with
    | none => (none, none, [LogEvent.convertError name])
    | some originalSize =>
      if io.ensureDirOk then
        let route :=
          if lowerExt name = ".gif".toList ∧ isAnimatedGif io.probe then
            Route.animated
          else Route.staticEnc
        match io.convertAndStat with
        | none => (none, some route, [LogEvent.convertError name])
        | some newSize =>
          (some ⟨originalSize, newSize⟩, some route,
            [LogEvent.converted name originalSize newSize (savingsStr originalSize newSize)])
      else (none, none, [LogEvent.convertError name])
  else (none, none, [LogEvent.skippedUnsupported name])

/-! ## The directory walker -/

/-- A directory entry as reported by `fs.readdir(..., withFileTypes)`.
A file carries its effect oracle; a directory carries whether its own
`readdir` will succeed, and its entries; `other` is an entry for which
both `isDirectory()` and `isFile()` are false (e.g. a symbolic link or
a socket). -/
inductive Entry where
  | file : List Char → FileEffects → Entry
  | dir : List Char → Bool → List Entry → Entry
  | other : List Char → Entry

/-- One conversion attempted by the walker: the input path, the output
path after the `.webp` rewrite of line 187 of the source, and the
outcome `convertFile` returned for it. -/
structure ConvRec where
  input : List (List Char)
  output : List (List Char)
  outcome : Option ConvOutcome
deriving DecidableEq

/-- Everything one call to `processDirectory` produces: the statistics
record it returns, the conversions it attempted, and the log lines
emitted. -/
structure WalkResult where
  stats : Stats
  convs : List ConvRec
  logs : List LogEvent
deriving DecidableEq

/-- The result a `processDirectory` call starts from (lines 151–158 of
the source): fresh zero statistics, nothing attempted, nothing
logged. -/
def initWalk : WalkResult := ⟨initStats, [], []⟩

/-- The `for` loop of lines 163–199 of the source, over the remaining
entries of one directory, with `acc` the state accumulated so far by
this call.  The subdirectory branch (lines 168–180) inlines the body
of `processDirectory` for the subdirectory (the `if readable` test is
the `try`/`catch` around its own `readdir`); `processDirectory` below
is the same expression, so the recursion matches the source's
`await processDirectory(inputPath, outputDir)` call. -/
def goEntries (inD outD : List (List Char)) (es : List Entry) (acc : WalkResult) :
    WalkResult :=
  match es with
  | [] => acc
  | Entry.dir name readable sub :: rest =>
    let sr :=
      if readable then goEntries (inD ++ [name]) outD sub initWalk
      else ⟨initStats, [], [LogEvent.dirError (inD ++ [name])]⟩
    goEntries inD outD rest
      ⟨mergeStats acc.stats sr.stats, acc.convs ++ sr.convs, acc.logs ++ sr.logs⟩
  | Entry.file name io :: rest =>
    let inputPath := inD ++ [name]
    let relativePath := relSegs [TO_BE_CONVERTED_DIR] inputPath
    let outputPath := outD ++ relativePath
    let ext := lowerExt name
    if ext ∈ SUPPORTED_FORMATS then
      let outputWebP := replaceExtWithWebp outputPath
      let res := convertFile name io
      let stats1 :=
        { acc.stats with
          totalFiles := acc.stats.totalFiles + 1,
          formats := bumpFormat acc.stats.formats ext 1 }
      let stats2 :=
        match res.1 with
        | some outcome =>
          { stats1 with
            successfulConversions := stats1.successfulConversions + 1,
            totalOriginalSize := stats1.totalOriginalSize + outcome.originalSize,
            totalNewSize := stats1.totalNewSize + outcome.newSize }
        | none =>
          { stats1 with failedConversions := stats1.failedConversions + 1 }
      goEntries inD outD rest
        ⟨stats2, acc.convs ++ [⟨inputPath, outputWebP, res.1⟩], acc.logs ++ res.2.2⟩
    else
      goEntries inD outD rest acc
  | Entry.other _ :: rest => goEntries inD outD rest acc

/-- `processDirectory` (lines 150–205 of the source).  `readable` is
whether this directory's own `fs.readdir` succeeds; when it throws,
the `catch` logs the error and the fresh statistics record is returned
unchanged. -/
def processDirectory (inD outD : List (List Char)) (readable : Bool)
    (es : List Entry) : WalkResult :=
  if readable then goEntries inD outD es initWalk
  else ⟨initStats, [], [LogEvent.dirError inD]⟩

/-! ## Walker lemmas -/

/-- Combining two walk results: merge the statistics, concatenate the
conversion and log streams. -/
def combineWalk (a b : WalkResult) : WalkResult :=
  ⟨mergeStats a.stats b.stats, a.convs ++ b.convs, a.logs ++ b.logs⟩

/-- The `WalkResult` contributed by one supported file entry on its
own. -/
def fileResult (inD outD : List (List Char)) (name : List Char) (io : FileEffects) :
    WalkResult :=
  let inputPath := inD ++ [name]
  let outputWebP := replaceExtWithWebp (outD ++ relSegs [TO_BE_CONVERTED_DIR] inputPath)
  let res := convertFile name io
  { stats :=
      match res.1 with
      | some o =>
        { totalFiles := 1, successfulConversions := 1, failedConversions := 0,
          totalOriginalSize := o.originalSize, totalNewSize := o.newSize,
          formats := [(lowerExt name, 1)] }
      | none =>
        { totalFiles := 1, successfulConversions := 0, failedConversions := 1,
          totalOriginalSize := 0, totalNewSize := 0,
          formats := [(lowerExt name, 1)] },
    convs := [⟨inputPath, outputWebP, res.1⟩],
    logs := res.2.2 }

theorem goEntries_nil (inD outD : List (List Char)) (acc : WalkResult) :
    goEntries inD outD [] acc = acc := by
  simp [goEntries]

theorem goEntries_cons_dir (inD outD : List (List Char)) (name : List Char)
    (readable : Bool) (sub rest : List Entry) (acc : WalkResult) :
    goEntries inD outD (Entry.dir name readable sub :: rest) acc =
      goEntries inD outD rest
        (combineWalk acc (processDirectory (inD ++ [name]) outD readable sub)) := by
  cases readable <;> simp [goEntries, processDirectory, combineWalk]

theorem goEntries_cons_file_supported (inD outD : List (List Char)) (name : List Char)
    (io : FileEffects) (rest : List Entry) (acc : WalkResult)
    (h : lowerExt name ∈ SUPPORTED_FORMATS) :
    goEntries inD outD (Entry.file name io :: rest) acc =
      goEntries inD outD rest (combineWalk acc (fileResult inD outD name io)) := by
  simp only [goEntries, if_pos h]
  congr 1
  cases hres : (convertFile name io).1 <;>
    simp [combineWalk, fileResult, mergeStats, mergeFormats, bumpFormat, hres]

theorem goEntries_cons_file_unsupported (inD outD : List (List Char)) (name : List Char)
    (io : FileEffects) (rest : List Entry) (acc : WalkResult)
    (h : lowerExt name ∉ SUPPORTED_FORMATS) :
    goEntries inD outD (Entry.file name io :: rest) acc = goEntries inD outD rest acc := by
  simp only [goEntries, if_neg h]

theorem goEntries_cons_other (inD outD : List (List Char)) (name : List Char)
    (rest : List Entry) (acc : WalkResult) :
    goEntries inD outD (Entry.other name :: rest) acc = goEntries inD outD rest acc := by
  simp [goEntries]

/-- The association list has no repeated keys. -/
def NodupKeys (l : List (List Char × Nat)) : Prop := (l.map Prod.fst).Nodup

theorem hasKey_iff_mem (l : List (List Char × Nat)) (k : List Char) :
    hasKey l k = true ↔ k ∈ l.map Prod.fst := by
  induction l with
  | nil => simp [hasKey]
  | cons hd rest ih =>
    obtain ⟨k0, v0⟩ := hd
    simp only [hasKey, List.map_cons, List.mem_cons, Bool.or_eq_true, decide_eq_true_eq, ih]
    constructor
    · rintro (h | h)
      · exact Or.inl h.symm
      · exact Or.inr h
    · rintro (h | h)
      · exact Or.inl h.symm
      · exact Or.inr h

theorem keys_bumpFormat (l : List (List Char × Nat)) (k : List Char) (v : Nat) :
    (bumpFormat l k v).map Prod.fst =
      if hasKey l k then l.map Prod.fst else l.map Prod.fst ++ [k] := by
  induction l with
  | nil => simp [bumpFormat, hasKey]
  | cons hd rest ih =>
    obtain ⟨k0, v0⟩ := hd
    by_cases h : k0 = k
    · simp [bumpFormat, hasKey, h]
    · simp only [bumpFormat, if_neg h, hasKey, List.map_cons, ih]
      by_cases hk : hasKey rest k = true <;> simp [h, hk]

theorem nodupKeys_bumpFormat (l : List (List Char × Nat)) (k : List Char) (v : Nat)
    (h : NodupKeys l) : NodupKeys (bumpFormat l k v) := by
  unfold NodupKeys at h ⊢
  rw [keys_bumpFormat]
  by_cases hk : hasKey l k = true
  · simp [hk, h]
  · have : k ∉ l.map Prod.fst := fun hm => hk ((hasKey_iff_mem l k).mpr hm)
    simp [hk, List.nodup_append, h, this]

theorem nodupKeys_mergeFormats (c p : List (List Char × Nat)) (h : NodupKeys p) :
    NodupKeys (mergeFormats p c) := by
  induction c generalizing p with
  | nil => exact h
  | cons hd c' ih =>
    obtain ⟨k, v⟩ := hd
    rw [mergeFormats_cons]
    exact ih (bumpFormat p k v) (nodupKeys_bumpFormat p k v h)

theorem mergeFormats_cons_out (l p : List (List Char × Nat)) (k : List Char) (v : Nat)
    (h : k ∉ l.map Prod.fst) :
    mergeFormats ((k, v) :: p) l = (k, v) :: mergeFormats p l := by
  induction l generalizing p with
  | nil => rfl
  | cons hd l' ih =>
    obtain ⟨k1, v1⟩ := hd
    have hk1 : ¬ k = k1 := by
      intro he
      exact h (by simp [he])
    have h' : k ∉ l'.map Prod.fst := fun hm => h (by simp [hm])
    rw [mergeFormats_cons, show bumpFormat ((k, v) :: p) k1 v1 =
        (k, v) :: bumpFormat p k1 v1 by simp [bumpFormat, hk1],
      ih (bumpFormat p k1 v1) h', mergeFormats_cons]

theorem mergeFormats_nil_left (l : List (List Char × Nat)) (h : NodupKeys l) :
    mergeFormats [] l = l := by
  induction l with
  | nil => rfl
  | cons hd l' ih =>
    obtain ⟨k, v⟩ := hd
    unfold NodupKeys at h
    simp only [List.map_cons, List.nodup_cons] at h
    rw [mergeFormats_cons, show bumpFormat ([] : List (List Char × Nat)) k v = [(k, v)]
        from rfl, mergeFormats_cons_out l' [] k v h.1, ih h.2]

theorem mergeStats_initStats_left (s : Stats) (h : NodupKeys s.formats) :
    mergeStats initStats s = s := by
  ext <;> simp [mergeStats, initStats, mergeFormats_nil_left s.formats h]

theorem combineWalk_initWalk_right (a : WalkResult) : combineWalk a initWalk = a := by
  simp [combineWalk, initWalk, mergeStats_initStats]

theorem combineWalk_initWalk_left (b : WalkResult) (h : NodupKeys b.stats.formats) :
    combineWalk initWalk b = b := by
  simp [combineWalk, initWalk, mergeStats_initStats_left b.stats h]

theorem combineWalk_assoc (a b c : WalkResult) :
    combineWalk (combineWalk a b) c = combineWalk a (combineWalk b c) := by
  simp [combineWalk, mergeStats_assoc, List.append_assoc]

theorem nodupKeys_goEntries (inD outD : List (List Char)) (es : List Entry)
    (acc : WalkResult) (h : NodupKeys acc.stats.formats) :
    NodupKeys (goEntries inD outD es acc).stats.formats := by
  induction es generalizing acc with
  | nil => rw [goEntries_nil]; exact h
  | cons e rest ih =>
    cases e with
    | dir name readable sub =>
      rw [goEntries_cons_dir]
      exact ih _ (nodupKeys_mergeFormats _ _ h)
    | file name io =>
      by_cases hs : lowerExt name ∈ SUPPORTED_FORMATS
      · rw [goEntries_cons_file_supported _ _ _ _ _ _ hs]
        exact ih _ (nodupKeys_mergeFormats _ _ h)
      · rw [goEntries_cons_file_unsupported _ _ _ _ _ _ hs]
        exact ih _ h
    | other name =>
      rw [goEntries_cons_other]
      exact ih _ h

theorem nodupKeys_initWalk : NodupKeys initWalk.stats.formats := by
  simp [initWalk, initStats, NodupKeys]

theorem nodupKeys_processDirectory (inD outD : List (List Char)) (readable : Bool)
    (es : List Entry) : NodupKeys (processDirectory inD outD readable es).stats.formats := by
  unfold processDirectory
  cases readable
  · simp [initStats, NodupKeys]
  · simpa using nodupKeys_goEntries inD outD es initWalk nodupKeys_initWalk

theorem nodupKeys_fileResult (inD outD : List (List Char)) (name : List Char)
    (io : FileEffects) : NodupKeys (fileResult inD outD name io).stats.formats := by
  unfold fileResult
  cases h : (convertFile name io).1 <;> simp [NodupKeys, h]

/-- Accumulator homomorphism: processing a list of entries starting
from `acc` is the same as processing them from a fresh state and
combining afterwards. -/
theorem goEntries_combineWalk (inD outD : List (List Char)) (es : List Entry)
    (acc : WalkResult) :
    goEntries inD outD es acc = combineWalk acc (goEntries inD outD es initWalk) := by
  induction es generalizing acc with
  | nil => rw [goEntries_nil, goEntries_nil, combineWalk_initWalk_right]
  | cons e rest ih =>
    cases e with
    | dir name readable sub =>
      rw [goEntries_cons_dir, goEntries_cons_dir, ih,
        @ih (combineWalk initWalk (processDirectory (inD ++ [name]) outD readable sub)),
        combineWalk_initWalk_left _ (nodupKeys_processDirectory _ _ _ _),
        combineWalk_assoc]
    | file name io =>
      by_cases hs : lowerExt name ∈ SUPPORTED_FORMATS
      · rw [goEntries_cons_file_supported _ _ _ _ _ _ hs,
          goEntries_cons_file_supported _ _ _ _ _ _ hs, ih,
          @ih (combineWalk initWalk (fileResult inD outD name io)),
          combineWalk_initWalk_left _ (nodupKeys_fileResult _ _ _ _),
          combineWalk_assoc]
      · rw [goEntries_cons_file_unsupported _ _ _ _ _ _ hs,
          goEntries_cons_file_unsupported _ _ _ _ _ _ hs, ih]
    | other name =>
      rw [goEntries_cons_other, goEntries_cons_other, ih]

/-! ## The aggregate invariants -/

/-- Bytes a conversion outcome contributed to `totalOriginalSize`. -/
def outcomeOrig : Option ConvOutcome → Nat
  | some o => o.originalSize
  | none => 0

/-- Bytes a conversion outcome contributed to `totalNewSize`. -/
def outcomeNew : Option ConvOutcome → Nat
  | some o => o.newSize
  | none => 0

/-- Input bytes of the successful conversions in a stream; a failed
conversion contributes `0`. -/
def sumOrig : List ConvRec → Nat
  | [] => 0
  | c :: rest => outcomeOrig c.outcome + sumOrig rest

/-- Output bytes of the successful conversions in a stream; a failed
conversion contributes `0`. -/
def sumNew : List ConvRec → Nat
  | [] => 0
  | c :: rest => outcomeNew c.outcome + sumNew rest

theorem sumOrig_append (a b : List ConvRec) : sumOrig (a ++ b) = sumOrig a + sumOrig b := by
  induction a with
  | nil => simp [sumOrig]
  | cons c rest ih => simp [sumOrig, ih]; omega

theorem sumNew_append (a b : List ConvRec) : sumNew (a ++ b) = sumNew a + sumNew b := by
  induction a with
  | nil => simp [sumNew]
  | cons c rest ih => simp [sumNew, ih]; omega

/-- The joint invariant of every walk state: files split into
successes and failures, the format counts sum to the file count, and
the byte totals are the sums over the successful conversions
recorded so far. -/
def GoodWalk (w : WalkResult) : Prop :=
  w.stats.totalFiles = w.stats.successfulConversions + w.stats.failedConversions ∧
  sumFormats w.stats.formats = w.stats.totalFiles ∧
  w.stats.totalOriginalSize = sumOrig w.convs ∧
  w.stats.totalNewSize = sumNew w.convs

theorem goodWalk_initWalk : GoodWalk initWalk := by
  simp [GoodWalk, initWalk, initStats, sumFormats, sumOrig, sumNew]

theorem goodWalk_combineWalk (a b : WalkResult) (ha : GoodWalk a) (hb : GoodWalk b) :
    GoodWalk (combineWalk a b) := by
  obtain ⟨a1, a2, a3, a4⟩ := ha
  obtain ⟨b1, b2, b3, b4⟩ := hb
  refine ⟨?_, ?_, ?_, ?_⟩ <;>
    simp [combineWalk, mergeStats, sumFormats_mergeFormats, sumOrig_append, sumNew_append,
      a1, a2, a3, a4, b1, b2, b3, b4] <;> omega

theorem goodWalk_fileResult (inD outD : List (List Char)) (name : List Char)
    (io : FileEffects) : GoodWalk (fileResult inD outD name io) := by
  unfold fileResult
  cases h : (convertFile name io).1
  all_goals simp [GoodWalk, h, sumFormats, sumOrig, sumNew, outcomeOrig, outcomeNew]

theorem goodWalk_goEntries_bounded (n : Nat) :
    ∀ es : List Entry, sizeOf es ≤ n → ∀ inD outD acc,
      GoodWalk acc → GoodWalk (goEntries inD outD es acc) := by
  induction n with
  | zero =>
    intro es hsz inD outD acc h
    cases es with
    | nil => rwa [goEntries_nil]
    | cons e rest => simp only [List.cons.sizeOf_spec] at hsz; omega
  | succ n ih =>
    intro es hsz inD outD acc h
    cases es with
    | nil => rwa [goEntries_nil]
    | cons e rest =>
      cases e with
      | dir name readable sub =>
        rw [goEntries_cons_dir]
        have hsizes : sizeOf sub ≤ n ∧ sizeOf rest ≤ n := by
          simp [List.cons.sizeOf_spec, Entry.dir.sizeOf_spec] at hsz
          omega
        have hsub : GoodWalk (processDirectory (inD ++ [name]) outD readable sub) := by
          unfold processDirectory
          cases readable
          · simp [GoodWalk, initStats, sumFormats, sumOrig, sumNew]
          · simpa using ih sub hsizes.1 (inD ++ [name]) outD initWalk goodWalk_initWalk
        exact ih rest hsizes.2 inD outD _ (goodWalk_combineWalk acc _ h hsub)
      | file name io =>
        have hrest : sizeOf rest ≤ n := by
          simp [List.cons.sizeOf_spec] at hsz
          omega
        by_cases hs : lowerExt name ∈ SUPPORTED_FORMATS
        · rw [goEntries_cons_file_supported _ _ _ _ _ _ hs]
          exact ih rest hrest inD outD _
            (goodWalk_combineWalk acc _ h (goodWalk_fileResult inD outD name io))
        · rw [goEntries_cons_file_unsupported _ _ _ _ _ _ hs]
          exact ih rest hrest inD outD acc h
      | other name =>
        have hrest : sizeOf rest ≤ n := by
          simp [List.cons.sizeOf_spec] at hsz
          omega
        rw [goEntries_cons_other]
        exact ih rest hrest inD outD acc h

theorem goodWalk_goEntries (inD outD : List (List Char)) (es : List Entry)
    (acc : WalkResult) (h : GoodWalk acc) : GoodWalk (goEntries inD outD es acc) :=
  goodWalk_goEntries_bounded (sizeOf es) es (Nat.le_refl _) inD outD acc h

theorem goodWalk_processDirectory (inD outD : List (List Char)) (readable : Bool)
    (es : List Entry) : GoodWalk (processDirectory inD outD readable es) := by
  unfold processDirectory
  cases readable
  · simp [GoodWalk, initStats, sumFormats, sumOrig, sumNew]
  · simpa using goodWalk_goEntries inD outD es initWalk goodWalk_initWalk

/-! ## Path lemmas -/

theorem splitLastDot_eq (name : List Char) :
    ∀ b a, splitLastDot name = some (b, a) → name = b ++ '.' :: a := by
  induction name with
  | nil => intro b a h; simp [splitLastDot] at h
  | cons c cs ih =>
    intro b a h
    simp only [splitLastDot] at h
    cases hs : splitLastDot cs with
    | some p =>
      obtain ⟨b0, a0⟩ := p
      rw [hs] at h
      simp only [Option.some.injEq, Prod.mk.injEq] at h
      rw [← h.1, ← h.2, ih b0 a0 hs]
      simp
    | none =>
      rw [hs] at h
      by_cases hc : c = '.'
      · rw [if_pos hc] at h
        simp only [Option.some.injEq, Prod.mk.injEq] at h
        obtain ⟨hb, ha⟩ := h
        subst hb
        subst ha
        simp [hc]
      · rw [if_neg hc] at h
        exact absurd h (by simp)

/-- Every recognised extension is a dot followed by at least one
character, none of which is a slash. -/
theorem supported_formats_shape :
    ∀ x ∈ SUPPORTED_FORMATS, x ≠ [] ∧ x.head? = some '.' ∧ x.tail ≠ [] ∧ '/' ∉ x.tail := by
  decide

/-- Structure of a file name with a supported extension: it splits
around a last dot whose suffix is nonempty and slash-free, its
`extname` is exactly that dotted suffix, and the `.webp` regex rewrite
replaces exactly the extension. -/
theorem supported_extname_split (name : List Char)
    (h : lowerExt name ∈ SUPPORTED_FORMATS) :
    ∃ b a, splitLastDot name = some (b, a) ∧ a ≠ [] ∧ '/' ∉ a ∧
      extname name = '.' :: a ∧ name = b ++ '.' :: a ∧
      regexWebpSegment name = b ++ ".webp".toList := by
  unfold lowerExt at h
  cases hsp : splitLastDot name with
  | none =>
    rw [show extname name = [] by unfold extname; rw [hsp]] at h
    exact absurd h (by decide)
  | some p =>
    obtain ⟨b, a⟩ := p
    by_cases hb : b = []
    · rw [show extname name = [] by unfold extname; rw [hsp]; simp [hb]] at h
      exact absurd h (by decide)
    · by_cases hba : b = ['.'] ∧ a = []
      · rw [show extname name = [] by unfold extname; rw [hsp]; simp [hb, hba.1, hba.2]] at h
        exact absurd h (by decide)
      · have hext : extname name = '.' :: a := by
          unfold extname
          rw [hsp]
          simp [hb, hba]
        rw [hext] at h
        have hmap : ('.' :: a).map Char.toLower = '.' :: a.map Char.toLower := by
          simp [show Char.toLower '.' = '.' from rfl]
        rw [hmap] at h
        have hfacts := supported_formats_shape _ h
        have hane : a ≠ [] := by
          intro he
          rw [he] at hfacts
          simp at hfacts
        have hslash : '/' ∉ a := by
          intro hm
          have : '/' ∈ a.map Char.toLower := by
            have : Char.toLower '/' ∈ a.map Char.toLower := List.mem_map_of_mem Char.toLower hm
            simpa [show Char.toLower '/' = '/' from rfl] using this
          exact hfacts.2.2.2 (by simpa using this)
        refine ⟨b, a, rfl, hane, hslash, hext, splitLastDot_eq name b a hsp, ?_⟩
        unfold regexWebpSegment
        rw [hsp]
        simp [hane, hslash]

theorem relSegs_cons_self (x : List Char) (t : List (List Char)) :
    relSegs [x] (x :: t) = t := by
  simp [relSegs]

theorem replaceExtWithWebp_snoc (l : List (List Char)) (x : List Char) :
    replaceExtWithWebp (l ++ [x]) = l ++ [regexWebpSegment x] := by
  induction l with
  | nil => rfl
  | cons y l ih =>
    cases l with
    | nil => simp [replaceExtWithWebp]
    | cons z l2 => simpa [replaceExtWithWebp] using ih

/-- A conversion record whose input lies under the source root at
relative directory `d0 ++ d`, whose file has a supported extension,
and whose output is the output root joined with the same relative
directory, the extension rewritten to `.webp`. -/
def ConvMirrors (outD d0 : List (List Char)) (c : ConvRec) : Prop :=
  ∃ d name stem, c.input = [TO_BE_CONVERTED_DIR] ++ (d0 ++ d) ++ [name] ∧
    lowerExt name ∈ SUPPORTED_FORMATS ∧ extname name ≠ [] ∧
    name = stem ++ extname name ∧
    c.output = outD ++ (d0 ++ d) ++ [stem ++ ".webp".toList]

theorem convMirrors_mono (outD d0 : List (List Char)) (x : List Char) (c : ConvRec)
    (h : ConvMirrors outD (d0 ++ [x]) c) : ConvMirrors outD d0 c := by
  obtain ⟨d, name, stem, h1, h2, h3, h4, h5⟩ := h
  exact ⟨x :: d, name, stem, by simpa using h1, h2, h3, h4, by simpa using h5⟩

theorem convMirrors_fileResult (outD d0 : List (List Char)) (name : List Char)
    (io : FileEffects) (hs : lowerExt name ∈ SUPPORTED_FORMATS) :
    ∀ c ∈ (fileResult (TO_BE_CONVERTED_DIR :: d0) outD name io).convs,
      ConvMirrors outD d0 c := by
  intro c hc
  obtain ⟨b, a, hsp, hane, hslash, hext, hname, hregex⟩ := supported_extname_split name hs
  have hc2 : c = ⟨(TO_BE_CONVERTED_DIR :: d0) ++ [name],
      replaceExtWithWebp (outD ++ relSegs [TO_BE_CONVERTED_DIR]
        ((TO_BE_CONVERTED_DIR :: d0) ++ [name])), (convertFile name io).1⟩ := by
    simpa [fileResult] using hc
  refine ⟨[], name, b, ?_, hs, by simp [hext], by rw [hext]; exact hname, ?_⟩
  · rw [hc2]
    simp
  · rw [hc2]
    show replaceExtWithWebp (outD ++ relSegs [TO_BE_CONVERTED_DIR]
      (TO_BE_CONVERTED_DIR :: (d0 ++ [name]))) = _
    rw [relSegs_cons_self, show outD ++ (d0 ++ [name]) = (outD ++ d0) ++ [name] by simp,
      replaceExtWithWebp_snoc, hregex]
    simp

theorem convMirrors_goEntries_bounded (n : Nat) :
    ∀ es : List Entry, sizeOf es ≤ n → ∀ d0 outD acc,
      (∀ c ∈ acc.convs, ConvMirrors outD d0 c) →
      ∀ c ∈ (goEntries (TO_BE_CONVERTED_DIR :: d0) outD es acc).convs,
        ConvMirrors outD d0 c := by
  induction n with
  | zero =>
    intro es hsz d0 outD acc hacc
    cases es with
    | nil => rw [goEntries_nil]; exact hacc
    | cons e rest => simp only [List.cons.sizeOf_spec] at hsz; omega
  | succ n ih =>
    intro es hsz d0 outD acc hacc
    cases es with
    | nil => rw [goEntries_nil]; exact hacc
    | cons e rest =>
      cases e with
      | dir name readable sub =>
        rw [goEntries_cons_dir]
        have hsizes : sizeOf sub ≤ n ∧ sizeOf rest ≤ n := by
          simp only [List.cons.sizeOf_spec, Entry.dir.sizeOf_spec] at hsz
          omega
        have hsub : ∀ c ∈ (processDirectory ((TO_BE_CONVERTED_DIR :: d0) ++ [name])
            outD readable sub).convs, ConvMirrors outD d0 c := by
          intro c hc
          unfold processDirectory at hc
          cases readable with
          | false => simp at hc
          | true =>
            simp only [if_pos] at hc
            refine convMirrors_mono outD d0 name c ?_
            refine ih sub hsizes.1 (d0 ++ [name]) outD initWalk (by simp [initWalk]) c ?_
            simpa using hc
        refine ih rest hsizes.2 d0 outD _ ?_
        intro c hc
        simp only [combineWalk, List.mem_append] at hc
        rcases hc with hc | hc
        · exact hacc c hc
        · exact hsub c hc
      | file name io =>
        have hrest : sizeOf rest ≤ n := by
          simp only [List.cons.sizeOf_spec] at hsz
          omega
        by_cases hs : lowerExt name ∈ SUPPORTED_FORMATS
        · rw [goEntries_cons_file_supported _ _ _ _ _ _ hs]
          refine ih rest hrest d0 outD _ ?_
          intro c hc
          simp only [combineWalk, List.mem_append] at hc
          rcases hc with hc | hc
          · exact hacc c hc
          · exact convMirrors_fileResult outD d0 name io hs c hc
        · rw [goEntries_cons_file_unsupported _ _ _ _ _ _ hs]
          exact ih rest hrest d0 outD acc hacc
      | other name =>
        have hrest : sizeOf rest ≤ n := by
          simp only [List.cons.sizeOf_spec] at hsz
          omega
        rw [goEntries_cons_other]
        exact ih rest hrest d0 outD acc hacc

/-! ## Entries that are neither files nor directories -/

/-- Remove, recursively, every entry that is neither a file nor a
directory. -/
def removeOthers : List Entry → List Entry
  | [] => []
  | Entry.other _ :: rest => removeOthers rest
  | Entry.dir name r sub :: rest => Entry.dir name r (removeOthers sub) :: removeOthers rest
  | Entry.file name io :: rest => Entry.file name io :: removeOthers rest

theorem goEntries_removeOthers_bounded (n : Nat) :
    ∀ es : List Entry, sizeOf es ≤ n → ∀ inD outD acc,
      goEntries inD outD (removeOthers es) acc = goEntries inD outD es acc := by
  induction n with
  | zero =>
    intro es hsz inD outD acc
    cases es with
    | nil => simp [removeOthers]
    | cons e rest => simp only [List.cons.sizeOf_spec] at hsz; omega
  | succ n ih =>
    intro es hsz inD outD acc
    cases es with
    | nil => simp [removeOthers]
    | cons e rest =>
      cases e with
      | dir name readable sub =>
        have hsizes : sizeOf sub ≤ n ∧ sizeOf rest ≤ n := by
          simp only [List.cons.sizeOf_spec, Entry.dir.sizeOf_spec] at hsz
          omega
        rw [show removeOthers (Entry.dir name readable sub :: rest) =
            Entry.dir name readable (removeOthers sub) :: removeOthers rest by
              simp [removeOthers],
          goEntries_cons_dir, goEntries_cons_dir, ih rest hsizes.2,
          show processDirectory (inD ++ [name]) outD readable (removeOthers sub) =
            processDirectory (inD ++ [name]) outD readable sub by
              unfold processDirectory
              rw [ih sub hsizes.1]]
      | file name io =>
        have hrest : sizeOf rest ≤ n := by
          simp only [List.cons.sizeOf_spec] at hsz
          omega
        rw [show removeOthers (Entry.file name io :: rest) =
            Entry.file name io :: removeOthers rest by simp [removeOthers]]
        by_cases hs : lowerExt name ∈ SUPPORTED_FORMATS
        · rw [goEntries_cons_file_supported _ _ _ _ _ _ hs,
            goEntries_cons_file_supported _ _ _ _ _ _ hs, ih rest hrest]
        · rw [goEntries_cons_file_unsupported _ _ _ _ _ _ hs,
            goEntries_cons_file_unsupported _ _ _ _ _ _ hs, ih rest hrest]
      | other name =>
        have hrest : sizeOf rest ≤ n := by
          simp only [List.cons.sizeOf_spec] at hsz
          omega
        rw [show removeOthers (Entry.other name :: rest) = removeOthers rest by
            simp [removeOthers], goEntries_cons_other, ih rest hrest]

theorem sumOrig_filter_isSome (cs : List ConvRec) :
    sumOrig (cs.filter fun c => c.outcome.isSome) = sumOrig cs := by
  induction cs with
  | nil => rfl
  | cons c rest ih =>
    cases h : c.outcome <;>
      simp [List.filter, h, sumOrig, outcomeOrig, ih]

theorem sumNew_filter_isSome (cs : List ConvRec) :
    sumNew (cs.filter fun c => c.outcome.isSome) = sumNew cs := by
  induction cs with
  | nil => rfl
  | cons c rest ih =>
    cases h : c.outcome <;>
      simp [List.filter, h, sumNew, outcomeNew, ih]

/-! ## The claims -/

/-- Claim C1: for every directory tree the `DirectoryStatistics`
returned by the walk satisfies
`totalFiles = successfulConversions + failedConversions`.  The
statement quantifies over every input directory, output directory,
readability and entry list, so it covers the record returned by each
recursive call, not only the root. -/
theorem claim_C1_total_split (inD outD : List (List Char)) (readable : Bool)
    (es : List Entry) :
    (processDirectory inD outD readable es).stats.totalFiles =
      (processDirectory inD outD readable es).stats.successfulConversions +
        (processDirectory inD outD readable es).stats.failedConversions :=
  (goodWalk_processDirectory inD outD readable es).1

/-- Claim C2: the statistics merge is a pure fold in which all five
numeric fields add, and the format counts merge by summing per key —
a key present on only one side passes through unchanged — and
consequently merging subtree statistics `a` then `b` into a parent
yields the same totals (all numeric fields and every per-key format
count) as merging `b` then `a`. -/
theorem claim_C2_merge_fold :
    (∀ p c : Stats,
      (mergeStats p c).totalFiles = p.totalFiles + c.totalFiles ∧
      (mergeStats p c).successfulConversions =
        p.successfulConversions + c.successfulConversions ∧
      (mergeStats p c).failedConversions = p.failedConversions + c.failedConversions ∧
      (mergeStats p c).totalOriginalSize = p.totalOriginalSize + c.totalOriginalSize ∧
      (mergeStats p c).totalNewSize = p.totalNewSize + c.totalNewSize) ∧
    (∀ (p c : Stats) (key : List Char),
      fmtCount (mergeStats p c).formats key =
        fmtCount p.formats key + fmtCount c.formats key) ∧
    (∀ (p c : Stats) (key : List Char), fmtCount c.formats key = 0 →
      fmtCount (mergeStats p c).formats key = fmtCount p.formats key) ∧
    (∀ (p c : Stats) (key : List Char), fmtCount p.formats key = 0 →
      fmtCount (mergeStats p c).formats key = fmtCount c.formats key) ∧
    (∀ s a b : Stats,
      ((mergeStats (mergeStats s a) b).totalFiles =
          (mergeStats (mergeStats s b) a).totalFiles ∧
        (mergeStats (mergeStats s a) b).successfulConversions =
          (mergeStats (mergeStats s b) a).successfulConversions ∧
        (mergeStats (mergeStats s a) b).failedConversions =
          (mergeStats (mergeStats s b) a).failedConversions ∧
        (mergeStats (mergeStats s a) b).totalOriginalSize =
          (mergeStats (mergeStats s b) a).totalOriginalSize ∧
        (mergeStats (mergeStats s a) b).totalNewSize =
          (mergeStats (mergeStats s b) a).totalNewSize) ∧
      ∀ key : List Char,
        fmtCount (mergeStats (mergeStats s a) b).formats key =
          fmtCount (mergeStats (mergeStats s b) a).formats key) := by
  refine ⟨fun p c => ⟨rfl, rfl, rfl, rfl, rfl⟩,
    fun p c key => by simp [mergeStats, fmtCount_mergeFormats],
    fun p c key h => by simp [mergeStats, fmtCount_mergeFormats, h],
    fun p c key h => by simp [mergeStats, fmtCount_mergeFormats, h],
    fun s a b => ⟨⟨?_, ?_, ?_, ?_, ?_⟩, fun key => ?_⟩⟩ <;>
    simp [mergeStats, fmtCount_mergeFormats] <;> omega

/-- Witness for C2: a key present only in the parent passes through
the merge unchanged, at concrete statistics records. -/
theorem claim_C2_witness :
    fmtCount (mergeStats ⟨1, 1, 0, 10, 4, [(".png".toList, 1)]⟩
        ⟨2, 1, 1, 30, 9, [(".gif".toList, 2)]⟩).formats ".png".toList =
      fmtCount ([(".png".toList, 1)] : List (List Char × Nat)) ".png".toList :=
  claim_C2_merge_fold.2.2.1 ⟨1, 1, 0, 10, 4, [(".png".toList, 1)]⟩
    ⟨2, 1, 1, 30, 9, [(".gif".toList, 2)]⟩ ".png".toList (by decide)

/-- Claim C3: every conversion performed by the walk writes to the
output root joined with the input path taken relative to the source
root, with the file extension replaced by `.webp`; in particular the
input `to-be-converted/a/b/img.png` yields exactly
`converted/a/b/img.webp`. -/
theorem claim_C3_mirrored_paths :
    (∀ (outD : List (List Char)) (readable : Bool) (es : List Entry) (c : ConvRec),
      c ∈ (processDirectory [TO_BE_CONVERTED_DIR] outD readable es).convs →
      ∃ d name stem, c.input = [TO_BE_CONVERTED_DIR] ++ d ++ [name] ∧
        lowerExt name ∈ SUPPORTED_FORMATS ∧ extname name ≠ [] ∧
        name = stem ++ extname name ∧
        c.output = outD ++ d ++ [stem ++ ".webp".toList]) ∧
    (processDirectory [TO_BE_CONVERTED_DIR] [CONVERTED_DIR] true
        [Entry.dir "a".toList true [Entry.dir "b".toList true
          [Entry.file "img.png".toList ⟨some 1000, true, some none, some 400⟩]]]).convs =
      [⟨[TO_BE_CONVERTED_DIR, "a".toList, "b".toList, "img.png".toList],
        [CONVERTED_DIR, "a".toList, "b".toList, "img.webp".toList],
        some ⟨1000, 400⟩⟩] := by
  constructor
  · intro outD readable es c hc
    unfold processDirectory at hc
    cases readable with
    | false => simp at hc
    | true =>
      simp only [if_pos] at hc
      have hm := convMirrors_goEntries_bounded (sizeOf es) es (Nat.le_refl _) [] outD
        initWalk (by simp [initWalk]) c (by simpa using hc)
      obtain ⟨d, name, stem, h1, h2, h3, h4, h5⟩ := hm
      exact ⟨d, name, stem, by simpa using h1, h2, h3, h4, by simpa using h5⟩
  · simp [processDirectory, goEntries, convertFile, lowerExt, extname, splitLastDot,
      SUPPORTED_FORMATS, initWalk, initStats, mergeStats, mergeFormats, bumpFormat,
      combineWalk, relSegs, replaceExtWithWebp, regexWebpSegment,
      TO_BE_CONVERTED_DIR, CONVERTED_DIR]

/-- Witness for C3: the conversion record of the nested example
satisfies the mirrored-path property. -/
theorem claim_C3_witness :
    ∃ d name stem,
      (⟨[TO_BE_CONVERTED_DIR, "a".toList, "b".toList, "img.png".toList],
        [CONVERTED_DIR, "a".toList, "b".toList, "img.webp".toList],
        some ⟨1000, 400⟩⟩ : ConvRec).input = [TO_BE_CONVERTED_DIR] ++ d ++ [name] ∧
      lowerExt name ∈ SUPPORTED_FORMATS ∧ extname name ≠ [] ∧
      name = stem ++ extname name ∧
      (⟨[TO_BE_CONVERTED_DIR, "a".toList, "b".toList, "img.png".toList],
        [CONVERTED_DIR, "a".toList, "b".toList, "img.webp".toList],
        some ⟨1000, 400⟩⟩ : ConvRec).output =
        [CONVERTED_DIR] ++ d ++ [stem ++ ".webp".toList] :=
  claim_C3_mirrored_paths.1 [CONVERTED_DIR] true
    [Entry.dir "a".toList true [Entry.dir "b".toList true
      [Entry.file "img.png".toList ⟨some 1000, true, some none, some 400⟩]]] _
    (by simp [processDirectory, goEntries, convertFile, lowerExt, extname, splitLastDot,
      SUPPORTED_FORMATS, initWalk, initStats, mergeStats, mergeFormats, bumpFormat,
      combineWalk, relSegs, replaceExtWithWebp, regexWebpSegment,
      TO_BE_CONVERTED_DIR, CONVERTED_DIR])

/-- Counterexample for C4: when `originalSize` is 0 the reported
reduction is not `0%`: a nonzero `newSize` reports `-Infinity%`, a
zero `newSize` reports `NaN%`, and the overall reduction printed by
`main` after walking an empty source directory is `NaN%`.  (No
arithmetic error is raised — that half of the claim holds — but the
reported value contradicts the claimed `0%`.) -/
theorem claim_C4_counterexample :
    savingsStr 0 400 = "-Infinity" ∧ savingsStr 0 400 ≠ "0.00" ∧
    savingsStr 0 0 = "NaN" ∧
    overallReductionStr
        (processDirectory [TO_BE_CONVERTED_DIR] [CONVERTED_DIR] true
          []).stats.totalOriginalSize
        (processDirectory [TO_BE_CONVERTED_DIR] [CONVERTED_DIR] true
          []).stats.totalNewSize
      = "NaN" := by
  have hnan : savingsStr 0 0 = "NaN" := by
    simp only [savingsStr, jsSub, jsDiv, jsMul, toFixed2]
    norm_num
  have hninf : savingsStr 0 400 = "-Infinity" := by
    simp only [savingsStr, jsSub, jsDiv, jsMul, toFixed2]
    norm_num
  refine ⟨hninf, by rw [hninf]; decide, hnan, ?_⟩
  have h1 : (processDirectory [TO_BE_CONVERTED_DIR] [CONVERTED_DIR] true
      []).stats.totalOriginalSize = 0 := by
    simp [processDirectory, goEntries, initWalk, initStats]
  have h2 : (processDirectory [TO_BE_CONVERTED_DIR] [CONVERTED_DIR] true
      []).stats.totalNewSize = 0 := by
    simp [processDirectory, goEntries, initWalk, initStats]
  rw [overallReductionStr, h1, h2]
  exact hnan

/-- Claim C4 as amended: for positive `originalSize` the reported
percentage is exactly `(original - new) / original * 100` rendered by
`toFixed(2)` (1000 and 400 give `60.00`); when `originalSize` is 0 no
arithmetic error is raised, but the division produces `NaN` (when
`newSize` is 0) or `-Infinity` (when `newSize` is positive) instead of
the claimed `0%`. -/
theorem claim_C4_amended :
    (∀ o n : Nat, 0 < o →
      savingsStr o n = formatFixed2 (((o : ℚ) - (n : ℚ)) / (o : ℚ) * 100)) ∧
    savingsStr 1000 400 = "60.00" ∧
    (∀ n : Nat, savingsStr 0 n = if n = 0 then "NaN" else "-Infinity") := by
  refine ⟨?_, ?_, ?_⟩
  · intro o n ho
    have hne : (o : ℚ) ≠ 0 := Nat.cast_ne_zero.mpr ho.ne'
    simp [savingsStr, jsSub, jsDiv, jsMul, toFixed2, hne]
  · simp only [savingsStr, jsSub, jsDiv, jsMul, toFixed2, formatFixed2, formatFixed2Nonneg]
    norm_num
    decide
  · intro n
    by_cases hn : n = 0
    · subst hn
      simp only [savingsStr, jsSub, jsDiv, jsMul, toFixed2, if_pos rfl]
      norm_num
    · rw [if_neg hn]
      simp only [savingsStr, jsSub, jsDiv, jsMul, toFixed2]
      norm_num [hn]
      rw [if_neg (not_lt.mpr (Nat.cast_nonneg n))]
      norm_num

/-- Witness for C4 (amended): the positive-size formula at 1000/400
and the zero-size behaviour at `newSize = 7`. -/
theorem claim_C4_witness :
    savingsStr 1000 400 = formatFixed2 ((1000 - 400) / 1000 * 100) ∧
    savingsStr 0 7 = "-Infinity" := by
  constructor
  · have h := claim_C4_amended.1 1000 400 (by decide)
    simpa using h
  · have h := claim_C4_amended.2.2 7
    simpa using h

/-- Counterexample for C5: for a directory containing only
`notes.txt`, the walk emits no log line at all (the claim says the
walker logs the skipped file; in fact the walker's extension check
bypasses the converter, whose skip log line is therefore unreachable
from the walk), while the file is indeed neither counted nor
converted. -/
theorem claim_C5_counterexample :
    (processDirectory [TO_BE_CONVERTED_DIR] [CONVERTED_DIR] true
        [Entry.file "notes.txt".toList ⟨some 5, true, some none, some 5⟩]).logs = [] ∧
    (processDirectory [TO_BE_CONVERTED_DIR] [CONVERTED_DIR] true
        [Entry.file "notes.txt".toList ⟨some 5, true, some none, some 5⟩]).stats.totalFiles
        = 0 ∧
    (processDirectory [TO_BE_CONVERTED_DIR] [CONVERTED_DIR] true
        [Entry.file "notes.txt".toList ⟨some 5, true, some none, some 5⟩]).convs = [] := by
  refine ⟨?_, ?_, ?_⟩ <;>
    simp [processDirectory, goEntries, lowerExt, extname, splitLastDot,
      SUPPORTED_FORMATS, initWalk, initStats]

/-- Claim C5 as amended: a directory entry whose extension is not in
the supported set is skipped silently by the walker — the walk state
is completely unchanged by the entry: it is not counted in
`totalFiles`, not counted as a failure, no conversion is attempted and
no output is produced, and (contrary to the original claim) no log
line is emitted for it. -/
theorem claim_C5_amended (inD outD : List (List Char)) (name : List Char)
    (io : FileEffects) (rest : List Entry) (acc : WalkResult)
    (h : lowerExt name ∉ SUPPORTED_FORMATS) :
    goEntries inD outD (Entry.file name io :: rest) acc = goEntries inD outD rest acc :=
  goEntries_cons_file_unsupported inD outD name io rest acc h

/-- Witness for C5 (amended): the walk over a directory with
`notes.txt` equals the walk with the entry absent. -/
theorem claim_C5_witness :
    goEntries [TO_BE_CONVERTED_DIR] [CONVERTED_DIR]
        [Entry.file "notes.txt".toList ⟨some 5, true, some none, some 5⟩] initWalk =
      goEntries [TO_BE_CONVERTED_DIR] [CONVERTED_DIR] [] initWalk :=
  claim_C5_amended [TO_BE_CONVERTED_DIR] [CONVERTED_DIR] "notes.txt".toList
    ⟨some 5, true, some none, some 5⟩ [] initWalk (by decide)

/-- Claim C6: once a file with a supported extension reaches the
dispatch (its input `stat` succeeded and the output directory could be
created), it is routed to the animation transcoder exactly when its
lowercased extension is `.gif` and the probe either failed (errors are
swallowed and conservatively treated as animated) or reported more
than one page; otherwise — a single-frame (or unprobeable-pages) gif,
and every other supported format — it is routed to the static encoder
path. -/
theorem claim_C6_routing (name : List Char) (io : FileEffects) (originalSize : Nat)
    (hst : io.statSize = some originalSize) (hdir : io.ensureDirOk = true)
    (hsup : lowerExt name ∈ SUPPORTED_FORMATS) :
    ((convertFile name io).2.1 = some Route.animated ↔
      lowerExt name = ".gif".toList ∧
        (io.probe = none ∨ ∃ p, io.probe = some (some p) ∧ 1 < p)) ∧
    ((convertFile name io).2.1 = some Route.staticEnc ↔
      ¬(lowerExt name = ".gif".toList ∧
        (io.probe = none ∨ ∃ p, io.probe = some (some p) ∧ 1 < p))) := by
  have hanim : (isAnimatedGif io.probe = true) ↔
      (io.probe = none ∨ ∃ p, io.probe = some (some p) ∧ 1 < p) := by
    cases hp : io.probe with
    | none => simp [isAnimatedGif]
    | some pg =>
      cases pg with
      | none => simp [isAnimatedGif]
      | some p => simp [isAnimatedGif]
  unfold convertFile
  rw [if_pos hsup, hst, hdir]
  simp only [if_true]
  cases hca : io.convertAndStat <;>
    by_cases hcond : lowerExt name = ".gif".toList ∧ isAnimatedGif io.probe = true <;>
      simp [hcond, hanim.symm]

/-- Witness for C6: a 2-frame gif and a gif whose probe fails are
routed to the animation transcoder; a 1-frame gif and a png are routed
to the static encoder. -/
theorem claim_C6_witness :
    (convertFile "anim.gif".toList ⟨some 10, true, some (some 2), some 4⟩).2.1 =
        some Route.animated ∧
    (convertFile "still.gif".toList ⟨some 10, true, some (some 1), some 4⟩).2.1 =
        some Route.staticEnc ∧
    (convertFile "broken.gif".toList ⟨some 10, true, none, some 4⟩).2.1 =
        some Route.animated ∧
    (convertFile "img.png".toList ⟨some 10, true, some (some 2), some 4⟩).2.1 =
        some Route.staticEnc := by
  refine ⟨?_, ?_, ?_, ?_⟩
  · exact (claim_C6_routing "anim.gif".toList ⟨some 10, true, some (some 2), some 4⟩ 10
      rfl rfl (by decide)).1.mpr ⟨by decide, Or.inr ⟨2, rfl, by decide⟩⟩
  · refine (claim_C6_routing "still.gif".toList ⟨some 10, true, some (some 1), some 4⟩ 10
      rfl rfl (by decide)).2.mpr ?_
    rintro ⟨-, hp | ⟨p, hp, hlt⟩⟩
    · simp at hp
    · simp only [Option.some.injEq] at hp
      omega
  · exact (claim_C6_routing "broken.gif".toList ⟨some 10, true, none, some 4⟩ 10
      rfl rfl (by decide)).1.mpr ⟨by decide, Or.inl rfl⟩
  · refine (claim_C6_routing "img.png".toList ⟨some 10, true, some (some 2), some 4⟩ 10
      rfl rfl (by decide)).2.mpr ?_
    rintro ⟨hgif, -⟩
    exact absurd hgif (by decide)

/-- Claim C7: any failure of the awaited operations of one file's
read/convert/stat sequence yields "no outcome" from the converter
instead of propagating, and the walker then counts exactly one
additional failed conversion for that file while the remaining
entries of the directory are still processed exactly as they would be
on their own (their conversions, successes and failures are
unchanged), so one file's failure never aborts the run. -/
theorem claim_C7_failure_isolated :
    (∀ (name : List Char) (io : FileEffects), lowerExt name ∈ SUPPORTED_FORMATS →
      (io.statSize = none ∨ io.ensureDirOk = false ∨ io.convertAndStat = none) →
      (convertFile name io).1 = none) ∧
    (∀ (inD outD : List (List Char)) (name : List Char) (io : FileEffects)
        (rest : List Entry) (acc : WalkResult),
      lowerExt name ∈ SUPPORTED_FORMATS → (convertFile name io).1 = none →
      (goEntries inD outD (Entry.file name io :: rest) acc).stats.failedConversions =
        acc.stats.failedConversions + 1 +
          (goEntries inD outD rest initWalk).stats.failedConversions ∧
      (goEntries inD outD (Entry.file name io :: rest) acc).stats.successfulConversions =
        acc.stats.successfulConversions +
          (goEntries inD outD rest initWalk).stats.successfulConversions ∧
      (goEntries inD outD (Entry.file name io :: rest) acc).convs =
        acc.convs ++
          ⟨inD ++ [name],
            replaceExtWithWebp (outD ++ relSegs [TO_BE_CONVERTED_DIR] (inD ++ [name])),
            none⟩ :: (goEntries inD outD rest initWalk).convs) := by
  constructor
  · intro name io hsup hfail
    unfold convertFile
    rw [if_pos hsup]
    rcases hfail with h | h | h
    · rw [h]
    · cases hst : io.statSize with
      | none => rfl
      | some o => rw [h]; simp
    · cases hst : io.statSize with
      | none => rfl
      | some o =>
        cases hd : io.ensureDirOk with
        | false => simp
        | true => simp [h]
  · intro inD outD name io rest acc hsup hfail
    rw [goEntries_cons_file_supported _ _ _ _ _ _ hsup, goEntries_combineWalk]
    refine ⟨?_, ?_, ?_⟩ <;>
      simp [combineWalk, mergeStats, fileResult, hfail]

/-- Witness for C7: in a two-file directory whose first file fails
(its encoder invocation throws), the failure is recorded once and the
second file is still processed. -/
theorem claim_C7_witness :
    (convertFile "bad.png".toList ⟨some 9, true, some none, none⟩).1 = none ∧
    ((goEntries [TO_BE_CONVERTED_DIR] [CONVERTED_DIR]
        [Entry.file "bad.png".toList ⟨some 9, true, some none, none⟩,
          Entry.file "ok.png".toList ⟨some 1000, true, some none, some 400⟩]
        initWalk).stats.failedConversions =
      initWalk.stats.failedConversions + 1 +
        (goEntries [TO_BE_CONVERTED_DIR] [CONVERTED_DIR]
          [Entry.file "ok.png".toList ⟨some 1000, true, some none, some 400⟩]
          initWalk).stats.failedConversions ∧
      (goEntries [TO_BE_CONVERTED_DIR] [CONVERTED_DIR]
        [Entry.file "bad.png".toList ⟨some 9, true, some none, none⟩,
          Entry.file "ok.png".toList ⟨some 1000, true, some none, some 400⟩]
        initWalk).stats.successfulConversions =
      initWalk.stats.successfulConversions +
        (goEntries [TO_BE_CONVERTED_DIR] [CONVERTED_DIR]
          [Entry.file "ok.png".toList ⟨some 1000, true, some none, some 400⟩]
          initWalk).stats.successfulConversions ∧
      (goEntries [TO_BE_CONVERTED_DIR] [CONVERTED_DIR]
        [Entry.file "bad.png".toList ⟨some 9, true, some none, none⟩,
          Entry.file "ok.png".toList ⟨some 1000, true, some none, some 400⟩]
        initWalk).convs =
      initWalk.convs ++
        ⟨[TO_BE_CONVERTED_DIR] ++ ["bad.png".toList],
          replaceExtWithWebp ([CONVERTED_DIR] ++
            relSegs [TO_BE_CONVERTED_DIR] ([TO_BE_CONVERTED_DIR] ++ ["bad.png".toList])),
          none⟩ ::
          (goEntries [TO_BE_CONVERTED_DIR] [CONVERTED_DIR]
            [Entry.file "ok.png".toList ⟨some 1000, true, some none, some 400⟩]
            initWalk).convs) := by
  have hfail : (convertFile "bad.png".toList ⟨some 9, true, some none, none⟩).1 = none :=
    claim_C7_failure_isolated.1 "bad.png".toList ⟨some 9, true, some none, none⟩
      (by decide) (Or.inr (Or.inr rfl))
  exact ⟨hfail,
    claim_C7_failure_isolated.2 [TO_BE_CONVERTED_DIR] [CONVERTED_DIR] "bad.png".toList
      ⟨some 9, true, some none, none⟩
      [Entry.file "ok.png".toList ⟨some 1000, true, some none, some 400⟩] initWalk
      (by decide) hfail⟩

/-- Claim C8: in every statistics record produced by the walk,
`totalOriginalSize` and `totalNewSize` are the byte sums taken only
over the successful conversions (the sums over the conversion stream
restricted to records with a successful outcome); a failed conversion
contributes nothing to either total. -/
theorem claim_C8_byte_totals (inD outD : List (List Char)) (readable : Bool)
    (es : List Entry) :
    (processDirectory inD outD readable es).stats.totalOriginalSize =
      sumOrig ((processDirectory inD outD readable es).convs.filter
        fun c => c.outcome.isSome) ∧
    (processDirectory inD outD readable es).stats.totalNewSize =
      sumNew ((processDirectory inD outD readable es).convs.filter
        fun c => c.outcome.isSome) := by
  constructor
  · rw [sumOrig_filter_isSome]
    exact (goodWalk_processDirectory inD outD readable es).2.2.1
  · rw [sumNew_filter_isSome]
    exact (goodWalk_processDirectory inD outD readable es).2.2.2

/-- Claim C9: in every statistics record produced by the walk the
format counts sum to `totalFiles`; and each supported file bumps the
count of exactly its lowercased extension by one, regardless of
whether its conversion succeeds or fails. -/
theorem claim_C9_format_counts :
    (∀ (inD outD : List (List Char)) (readable : Bool) (es : List Entry),
      sumFormats (processDirectory inD outD readable es).stats.formats =
        (processDirectory inD outD readable es).stats.totalFiles) ∧
    (∀ (inD outD : List (List Char)) (name : List Char) (io : FileEffects)
        (rest : List Entry) (acc : WalkResult),
      lowerExt name ∈ SUPPORTED_FORMATS →
      fmtCount (goEntries inD outD (Entry.file name io :: rest) acc).stats.formats
          (lowerExt name) =
        fmtCount acc.stats.formats (lowerExt name) + 1 +
          fmtCount (goEntries inD outD rest initWalk).stats.formats (lowerExt name)) := by
  constructor
  · intro inD outD readable es
    exact (goodWalk_processDirectory inD outD readable es).2.1
  · intro inD outD name io rest acc hs
    rw [goEntries_cons_file_supported _ _ _ _ _ _ hs,
      goEntries_combineWalk]
    have hfile : fmtCount (fileResult inD outD name io).stats.formats (lowerExt name)
        = 1 := by
      unfold fileResult
      cases h : (convertFile name io).1 <;> simp [h, fmtCount]
    simp [combineWalk, mergeStats, fmtCount_mergeFormats, hfile]

/-- Witness for C9: a `.PNG` file whose conversion fails is still
counted once under `.png`. -/
theorem claim_C9_witness :
    fmtCount (goEntries [TO_BE_CONVERTED_DIR] [CONVERTED_DIR]
        [Entry.file "a.PNG".toList ⟨some 10, true, some none, none⟩]
        initWalk).stats.formats (lowerExt "a.PNG".toList) =
      fmtCount initWalk.stats.formats (lowerExt "a.PNG".toList) + 1 +
        fmtCount (goEntries [TO_BE_CONVERTED_DIR] [CONVERTED_DIR] []
          initWalk).stats.formats (lowerExt "a.PNG".toList) :=
  claim_C9_format_counts.2 [TO_BE_CONVERTED_DIR] [CONVERTED_DIR] "a.PNG".toList
    ⟨some 10, true, some none, none⟩ [] initWalk (by decide)

/-- Claim C10: a directory entry that is neither a regular file nor a
directory contributes nothing and triggers no conversion and no
recursion — the walk state is unchanged by such an entry, and the walk
over any tree equals the walk over the tree with all such entries
removed (statistics, conversions and logs alike). -/
theorem claim_C10_others_ignored :
    (∀ (inD outD : List (List Char)) (name : List Char) (rest : List Entry)
        (acc : WalkResult),
      goEntries inD outD (Entry.other name :: rest) acc = goEntries inD outD rest acc) ∧
    (∀ (inD outD : List (List Char)) (readable : Bool) (es : List Entry),
      processDirectory inD outD readable (removeOthers es) =
        processDirectory inD outD readable es) := by
  constructor
  · exact goEntries_cons_other
  · intro inD outD readable es
    unfold processDirectory
    rw [goEntries_removeOthers_bounded (sizeOf es) es (Nat.le_refl _)]

end WebpConverter
